import Mathlib

/-!
Shallow embedding of the `slices` Go library (generic slice utilities) and
proofs of the specification claims about it.

Go slices are modelled by their element sequence as `List T`.  Where the
nil/non-nil distinction of a Go slice is observable, a slice is modelled as
`Option (List T)` (`none` = nil slice, `some l` = non-nil slice with
elements `l`).  Go `int` values that may be negative (indices, counts) are
modelled as `Int`; panics are modelled by returning `none` from an
`Option`-valued function.
-/

namespace slices

/-! ### Remove

Go source:
```
func Remove[T comparable](slice []T, item T) ([]T, int) {
    removed := 0
    for i := 0; i < len(slice); i++ {
        if slice[i] == item {
            removed++
            slice = append(slice[:i], slice[i+1:]...)
            i-- // since slice[i] was removed that index must be reprocessed
        }
    }
    return slice, removed
}
```
The value-level effect of `slice = append(slice[:i], slice[i+1:]...)` is the
deletion of the element at index `i`, i.e. `slice.take i ++ slice.drop (i+1)`;
the `i--` followed by the loop's `i++` re-examines the same index. -/

/-- One loop iteration state of `Remove`: current slice, current index `i`,
current `removed` count. -/
def removeLoop {T : Type} [DecidableEq T] (slice : List T) (item : T)
    (i : Nat) (removed : Nat) : List T × Nat :=
  if h : i < slice.length then
    if slice.get ⟨i, h⟩ = item then
      removeLoop (slice.take i ++ slice.drop (i + 1)) item i (removed + 1)
    else
      removeLoop slice item (i + 1) removed
  else
    (slice, removed)
termination_by slice.length - i
decreasing_by
  · simp only [List.length_append, List.length_take, List.length_drop]
    omega
  · omega

/-- `Remove` removes all occurrences of `item` from `slice`, returning the
resulting slice and the number of elements removed. -/
def Remove {T : Type} [DecidableEq T] (slice : List T) (item : T) : List T × Nat :=
  removeLoop slice item 0 0

theorem removeLoop_eq {T : Type} [DecidableEq T] (slice : List T) (item : T)
    (i removed : Nat) :
    removeLoop slice item i removed =
      (slice.take i ++ (slice.drop i).filter (fun a => a ≠ item),
       removed + (slice.drop i).count item) := by
  induction slice, item, i, removed using removeLoop.induct with
  | case1 slice i removed h ih =>
    rw [removeLoop, dif_pos h, if_pos rfl, ih]
    have htl : (slice.take i).length = i := by
      simp [List.length_take]; omega
    have h1 := List.take_left (slice.take i) (slice.drop (i + 1))
    have h2 := List.drop_left (slice.take i) (slice.drop (i + 1))
    rw [htl] at h1 h2
    have h3 : slice.drop i = slice.get ⟨i, h⟩ :: slice.drop (i + 1) := by
      rw [List.drop_eq_getElem_cons h]
      rfl
    rw [h1, h2, h3]
    simp only [Prod.ext_iff, List.filter_cons, List.count_cons]
    refine ⟨?_, ?_⟩
    · rw [if_neg (by simp)]
    · rw [if_pos (by simp)]
      omega
  | case2 slice item i removed h hne ih =>
    rw [removeLoop, dif_pos h, if_neg hne, ih]
    have h3 : slice.drop i = slice.get ⟨i, h⟩ :: slice.drop (i + 1) := by
      rw [List.drop_eq_getElem_cons h]
      rfl
    have h4 : slice.take (i + 1) = slice.take i ++ [slice.get ⟨i, h⟩] := by
      rw [List.take_succ]
      simp [List.getElem?_eq_getElem h]
    rw [h3, h4]
    simp only [Prod.ext_iff, List.filter_cons, List.count_cons]
    refine ⟨?_, ?_⟩
    · rw [if_pos (by simpa using hne), List.append_assoc]
      rfl
    · rw [if_neg (by simpa using hne)]
      omega
  | case3 slice item i removed h =>
    rw [removeLoop, dif_neg h]
    have hle : slice.length ≤ i := Nat.le_of_not_lt h
    rw [List.take_of_length_le hle, List.drop_eq_nil_of_le hle]
    simp

/-- The loop of `Remove` computes: survivors are exactly the elements different
from `item`, in order, and the count is the number of occurrences of `item`. -/
theorem Remove_eq {T : Type} [DecidableEq T] (s : List T) (x : T) :
    Remove s x = (s.filter (fun a => a ≠ x), s.count x) := by
  rw [Remove, removeLoop_eq]
  simp

theorem filter_ne_length_add_count {T : Type} [DecidableEq T] (s : List T) (x : T) :
    (s.filter (fun a => a ≠ x)).length + s.count x = s.length := by
  induction s with
  | nil => simp
  | cons y ys ih =>
    by_cases hy : y = x
    · subst hy
      simp only [ne_eq, decide_not] at ih ⊢
      simp [List.filter_cons, List.count_cons]
      omega
    · simp only [ne_eq, decide_not] at ih ⊢
      simp [List.filter_cons, List.count_cons, hy]
      omega

theorem filter_ne_count_self {T : Type} [DecidableEq T] (s : List T) (x : T) :
    (s.filter (fun a => a ≠ x)).count x = 0 := by
  rw [List.count_eq_zero]
  intro hmem
  have := List.of_mem_filter hmem
  simp at this

theorem filter_ne_of_not_mem {T : Type} [DecidableEq T] (s : List T) (x : T)
    (hx : x ∉ s) : s.filter (fun a => a ≠ x) = s := by
  apply List.filter_eq_self.mpr
  intro a ha
  simp
  exact fun h => hx (h ▸ ha)

/-- C1: for every slice `s` and item `x`, `Remove s x` returns a slice with zero
occurrences of `x`, whose length plus the returned removed count equals the
length of `s`; the survivors are exactly the elements different from `x` in
their original relative order (so adjacent matches and tail matches are
handled), and when `x` is absent the slice is returned unchanged with count
`0`. -/
theorem C1_remove_spec {T : Type} [DecidableEq T] (s : List T) (x : T) :
    (Remove s x).1.length + (Remove s x).2 = s.length
    ∧ (Remove s x).1.count x = 0
    ∧ (Remove s x).1 = s.filter (fun a => a ≠ x)
    ∧ (x ∉ s → Remove s x = (s, 0)) := by
  rw [Remove_eq]
  refine ⟨filter_ne_length_add_count s x, filter_ne_count_self s x, rfl, ?_⟩
  intro hx
  rw [filter_ne_of_not_mem s x hx, List.count_eq_zero.mpr hx]

/-- C1 witness: concrete evaluation, including the absent-item case. -/
theorem C1_remove_spec_witness :
    Remove ([1, 3, 1] : List Int) 2 = ([1, 3, 1], 0) :=
  (C1_remove_spec ([1, 3, 1] : List Int) 2).2.2.2 (by decide)

/-! ### Insert

Go source:
```
func Insert[T any](slice []T, idx int, item T) []T {
    tot := len(slice) + 1
    if tot <= cap(slice) {
        s2 := slice[:tot]
        copy(s2[idx+1:], slice[idx:])
        copy(s2[idx:], []T{item})
        return s2
    }
    s2 := make([]T, tot)
    copy(s2, slice[:idx])
    copy(s2[idx:], []T{item})
    copy(s2[idx+1:], slice[idx:])
    return s2
}
```
The capacity of the Go slice is modelled by an extra list `ext`: the backing
array is `slice ++ ext`, so `cap = slice.length + ext.length` and
`slice[:tot]` (legal because `tot <= cap`) is `(slice ++ ext).take tot`.
`z` is the Go zero value of `T`, used by `make([]T, tot)`.  A panic (an
out-of-range index in a slicing expression `s[low:]`, which Go rejects
unless `0 <= low <= len(s)`) is modelled by `none`.
-/

/-- Go `copy(dst, src)`: copies `min dst.length src.length` elements of `src`
onto the front of `dst`, returning the new contents of `dst`. -/
def listCopy {T : Type} (dst src : List T) : List T :=
  src.take dst.length ++ dst.drop src.length

/-- Go `copy(dst[low:], src)`: the slicing `dst[low:]` panics unless
`0 <= low <= len(dst)` (modelled by `none`); otherwise the copy updates `dst`
in place starting at offset `low`. -/
def copySub {T : Type} (dst : List T) (low : Int) (src : List T) : Option (List T) :=
  if 0 ≤ low ∧ low ≤ (dst.length : Int) then
    some (dst.take low.toNat ++ listCopy (dst.drop low.toNat) src)
  else none

/-- Go `s[low:]`: panics (modelled by `none`) unless `0 <= low <= len(s)`. -/
def sliceFrom {T : Type} (s : List T) (low : Int) : Option (List T) :=
  if 0 ≤ low ∧ low ≤ (s.length : Int) then some (s.drop low.toNat) else none

/-- `Insert` inserts `item` at index `idx`.  First branch: the backing array
has room (`tot <= cap`), `s2 := slice[:tot]`, then the two copies; second
branch: a fresh zero-filled array of length `tot` and three copies.  The
result is `none` exactly when one of the Go slicing expressions panics. -/
def Insert {T : Type} (slice ext : List T) (z : T) (idx : Int) (item : T) :
    Option (List T) :=
  let tot := slice.length + 1
  let cp := slice.length + ext.length
  if tot ≤ cp then
    let s2 := (slice ++ ext).take tot
    (sliceFrom slice idx).bind fun src =>
      (copySub s2 (idx + 1) src).bind fun s2 =>
        copySub s2 idx [item]
  else
    if 0 ≤ idx ∧ idx ≤ (cp : Int) then
      let s2 := List.replicate tot z
      let s2 := listCopy s2 ((slice ++ ext).take idx.toNat)
      (copySub s2 idx [item]).bind fun s2 =>
        (sliceFrom slice idx).bind fun src =>
          copySub s2 (idx + 1) src
    else none

theorem listCopy_length {T : Type} (dst src : List T) :
    (listCopy dst src).length = dst.length := by
  simp [listCopy]
  omega

theorem listCopy_of_le {T : Type} (dst src : List T) (h : src.length ≤ dst.length) :
    listCopy dst src = src ++ dst.drop src.length := by
  rw [listCopy, List.take_of_length_le h]

theorem copySub_fit {T : Type} (dst : List T) (n : Nat) (src : List T)
    (h : n + src.length ≤ dst.length) :
    copySub dst (n : Int) src = some (dst.take n ++ src ++ dst.drop (n + src.length)) := by
  rw [copySub, if_pos (by constructor <;> [exact Int.natCast_nonneg n; exact_mod_cast by omega])]
  rw [Int.toNat_natCast]
  rw [listCopy_of_le _ _ (by simp [List.length_drop]; omega)]
  rw [List.drop_drop]
  simp [List.append_assoc, Nat.add_comm]

theorem sliceFrom_nat {T : Type} (s : List T) (n : Nat) (h : n ≤ s.length) :
    sliceFrom s (n : Int) = some (s.drop n) := by
  rw [sliceFrom, if_pos (by constructor <;> [exact Int.natCast_nonneg n; exact_mod_cast h])]
  rw [Int.toNat_natCast]

theorem Insert_eq_some {T : Type} (slice ext : List T) (z item : T) (n : Nat)
    (hn : n ≤ slice.length) :
    Insert slice ext z (n : Int) item =
      some (slice.take n ++ item :: slice.drop n) := by
  simp only [Insert]
  by_cases hb : slice.length + 1 ≤ slice.length + ext.length
  · rw [if_pos hb]
    obtain ⟨e, ext', rfl⟩ : ∃ e ext', ext = e :: ext' := by
      cases ext with
      | nil => simp at hb
      | cons e ext' => exact ⟨e, ext', rfl⟩
    have hs2 : (slice ++ e :: ext').take (slice.length + 1) = slice ++ [e] := by
      rw [List.take_append_eq_append_take, List.take_of_length_le (by omega)]
      congr 1
      have h1 : slice.length + 1 - slice.length = 1 := by omega
      rw [h1]
      rfl
    rw [hs2, sliceFrom_nat slice n hn, Option.some_bind]
    have hcast : ((n : Int) + 1) = ((n + 1 : Nat) : Int) := by push_cast; ring
    rw [hcast, copySub_fit _ _ _ (by simp [List.length_drop]; omega), Option.some_bind]
    have hdz : ((slice ++ [e]).drop (n + 1 + (slice.drop n).length)) = [] := by
      apply List.drop_eq_nil_of_le
      simp [List.length_drop]
      omega
    rw [hdz]
    have hta : ((slice ++ [e]).take (n + 1)) = slice.take (n + 1) ++ [e].take (n + 1 - slice.length) := by
      rw [List.take_append_eq_append_take]
    set A := slice.take (n + 1) ++ [e].take (n + 1 - slice.length) with hA
    have hAlen : A.length = n + 1 := by
      simp [hA, List.length_take]
      omega
    rw [hta, List.append_nil]
    have hAtake : A.take n = slice.take n := by
      rw [hA, List.take_append_eq_append_take, List.take_take]
      have h2 : min n (n + 1) = n := by omega
      have h3 : n - (slice.take (n + 1)).length = 0 := by
        simp [List.length_take]
        omega
      rw [h2, h3]
      simp
    have hAdrop : A.drop (n + 1) = [] :=
      List.drop_eq_nil_of_le (by rw [hAlen])
    have hBtake : (A ++ List.drop n slice).take n = slice.take n := by
      rw [List.take_append_eq_append_take]
      have h3 : n - A.length = 0 := by rw [hAlen]; omega
      rw [h3, hAtake]
      try simp
    have hBdrop : (A ++ List.drop n slice).drop (n + 1) = List.drop n slice := by
      rw [List.drop_append_eq_append_drop]
      have h4 : n + 1 - A.length = 0 := by rw [hAlen]; omega
      rw [h4, hAdrop]
      try simp
    have hfit : n + ([item] : List T).length ≤ (A ++ List.drop n slice).length := by
      simp [hAlen, List.length_append, List.length_drop]
      try omega
    rw [copySub_fit _ _ _ hfit]
    congr 1
    simp only [List.length_singleton]
    rw [hBtake, hBdrop]
    simp
  · rw [if_neg hb]
    obtain rfl : ext = [] := by
      cases ext with
      | nil => rfl
      | cons e ext' =>
        exfalso
        simp [List.length_cons] at hb
    rw [if_pos ⟨Int.natCast_nonneg n, by simpa using (by exact_mod_cast hn : (n : Int) ≤ (slice.length : Int))⟩]
    rw [Int.toNat_natCast, List.append_nil]
    have hs1 : listCopy (List.replicate (slice.length + 1) z) (slice.take n) =
        slice.take n ++ List.replicate (slice.length + 1 - n) z := by
      rw [listCopy]
      have hsl : (slice.take n).length = n := by simp [List.length_take]; omega
      rw [hsl, List.take_of_length_le (by rw [hsl]; simp; omega), List.drop_replicate]
    rw [hs1]
    set B := slice.take n ++ List.replicate (slice.length + 1 - n) z with hB
    have hBlen : B.length = slice.length + 1 := by
      simp [hB, List.length_take]
      omega
    have hfit1 : n + ([item] : List T).length ≤ B.length := by
      rw [hBlen]
      simp
      omega
    rw [copySub_fit _ _ _ hfit1, Option.some_bind]
    simp only [List.length_singleton]
    have hBt : B.take n = slice.take n := by
      rw [hB, List.take_append_eq_append_take]
      have h1 : n - (slice.take n).length = 0 := by simp [List.length_take]; omega
      rw [h1, List.take_take]
      simp [min_self]
    have hBd : B.drop (n + 1) = List.replicate (slice.length - n) z := by
      rw [hB, List.drop_append_eq_append_drop]
      have h1 : (slice.take n).length = n := by simp [List.length_take]; omega
      have h2 : (slice.take n).drop (n + 1) = [] :=
        List.drop_eq_nil_of_le (by rw [h1]; omega)
      rw [h2, h1, List.drop_replicate]
      have h3 : n + 1 - n = 1 := by omega
      rw [h3]
      have h4 : slice.length + 1 - n - 1 = slice.length - n := by omega
      rw [h4]
      simp
    rw [hBt, hBd, sliceFrom_nat slice n hn, Option.some_bind]
    have hcast : ((n : Int) + 1) = ((n + 1 : Nat) : Int) := by push_cast; ring
    set C := slice.take n ++ [item] ++ List.replicate (slice.length - n) z with hC
    have hClen : C.length = slice.length + 1 := by
      simp [hC, List.length_take]
      omega
    have hfit2 : (n + 1) + (slice.drop n).length ≤ C.length := by
      rw [hClen]
      simp [List.length_drop]
      omega
    rw [hcast, copySub_fit _ _ _ hfit2]
    congr 1
    have hCt : C.take (n + 1) = slice.take n ++ [item] := by
      rw [hC, List.take_append_eq_append_take]
      have h1 : (slice.take n ++ [item]).length = n + 1 := by
        simp [List.length_take]
        omega
      have h2 : n + 1 - (slice.take n ++ [item]).length = 0 := by rw [h1]; omega
      rw [h2, List.take_of_length_le (by rw [h1])]
      simp
    have hCd : C.drop (n + 1 + (slice.drop n).length) = [] :=
      List.drop_eq_nil_of_le (by rw [hClen]; simp [List.length_drop]; omega)
    rw [hCt, hCd]
    simp

theorem Insert_eq_none {T : Type} (slice ext : List T) (z item : T) (idx : Int)
    (hidx : idx < 0 ∨ (slice.length : Int) < idx) :
    Insert slice ext z idx item = none := by
  simp only [Insert]
  by_cases hb : slice.length + 1 ≤ slice.length + ext.length
  · rw [if_pos hb]
    have hsf : sliceFrom slice idx = none := by
      rw [sliceFrom, if_neg]
      rintro ⟨h1, h2⟩
      omega
    rw [hsf]
    rfl
  · rw [if_neg hb, if_neg]
    rintro ⟨h1, h2⟩
    have he : ext.length = 0 := by omega
    rw [he] at h2
    omega

/-- C2: `Insert slice idx item` fails with a panic (modelled as `none`) if and
only if `idx < 0` or `idx > slice.length`, for every capacity (`ext`) and
zero value `z`; an out-of-range index is never silently normalized into a
successful result. -/
theorem C2_insert_panic_iff {T : Type} (slice ext : List T) (z item : T) (idx : Int) :
    Insert slice ext z idx item = none ↔ (idx < 0 ∨ (slice.length : Int) < idx) := by
  constructor
  · intro h
    by_contra hc
    push_neg at hc
    obtain ⟨h1, h2⟩ := hc
    obtain ⟨n, rfl⟩ : ∃ n : Nat, idx = (n : Int) := ⟨idx.toNat, (Int.toNat_of_nonneg h1).symm⟩
    rw [Insert_eq_some slice ext z item n (by exact_mod_cast h2)] at h
    cases h
  · exact Insert_eq_none slice ext z item idx

/-- C3: for `0 <= n <= slice.length`, `Insert slice n item` succeeds and
returns a slice of length `slice.length + 1` whose element at `n` is `item`,
with the elements before `n` unchanged and the elements at positions `n` and
later shifted right by one. -/
theorem C3_insert_spec {T : Type} (slice ext : List T) (z item : T) (n : Nat)
    (hn : n ≤ slice.length) :
    Insert slice ext z (n : Int) item = some (slice.take n ++ item :: slice.drop n)
    ∧ (slice.take n ++ item :: slice.drop n).length = slice.length + 1
    ∧ (slice.take n ++ item :: slice.drop n)[n]? = some item
    ∧ (∀ j, j < n → (slice.take n ++ item :: slice.drop n)[j]? = slice[j]?)
    ∧ (∀ j, n ≤ j → (slice.take n ++ item :: slice.drop n)[j + 1]? = slice[j]?) := by
  have hlt : (slice.take n).length = n := by simp [List.length_take]; omega
  refine ⟨Insert_eq_some slice ext z item n hn, ?_, ?_, ?_, ?_⟩
  · simp [List.length_take]
    omega
  · rw [List.getElem?_append_right (by rw [hlt])]
    rw [hlt]
    simp
  · intro j hj
    rw [List.getElem?_append, if_pos (by rw [hlt]; omega)]
    rw [List.getElem?_take]
    simp [hj]
  · intro j hj
    rw [List.getElem?_append_right (by rw [hlt]; omega)]
    rw [hlt]
    have h1 : j + 1 - n = (j - n) + 1 := by omega
    rw [h1, List.getElem?_cons_succ, List.getElem?_drop]
    congr 1
    omega

/-- C3 witness: inserting `99` at index `1` of `[10, 20]`. -/
theorem C3_insert_spec_witness :
    Insert ([10, 20] : List Int) [0] 0 ((1 : Nat) : Int) 99 =
      some (([10, 20] : List Int).take 1 ++ 99 :: ([10, 20] : List Int).drop 1) :=
  (C3_insert_spec ([10, 20] : List Int) [0] 0 99 1 (by decide)).1

/-! ### Chunk and Concat

Go source:
```
func Chunk[T any](slice []T, size int) [][]T {
    if size < 1 {
        panic("illegal size, cannot create chunks whose size is less than 1")
    }
    chunks := make([][]T, 0)
    for i := 0; i < len(slice); i += size {
        end := i + size
        if end > len(slice) {
            end = len(slice)
        }
        chunks = append(chunks, slice[i:end])
    }
    return chunks
}

func Concat[S ~[]E, E any](slices ...S) S {
    size := 0
    for _, s := range slices { size += len(s) }
    newSlice := make(S, size)
    i := 0
    for _, s := range slices {
        for j := 0; j < len(s); j, i = j+1, i+1 { newSlice[i] = s[j] }
    }
    return newSlice
}
```
The `Chunk` loop at position `i` emits `slice[i:min(i+size, len)]`, i.e. it
takes `size` elements from the remaining suffix and continues on the rest;
the loop terminates because `size >= 1` (guarded by the panic check, modelled
by `none`).  `Concat` writes the elements of each slice in order into a
preallocated result, i.e. it folds append over the outer loop. -/

def chunkLoop {T : Type} (size : Nat) (hs : 0 < size) (l : List T) : List (List T) :=
  if l.isEmpty then [] else l.take size :: chunkLoop size hs (l.drop size)
termination_by l.length
decreasing_by
  simp [List.length_drop]
  cases l with
  | nil => simp_all
  | cons x xs => simp; omega

def Chunk {T : Type} (slice : List T) (size : Int) : Option (List (List T)) :=
  if h : size < 1 then none
  else some (chunkLoop size.toNat (by omega) slice)

def Concat {T : Type} (slices : List (List T)) : List T :=
  slices.foldl (fun newSlice s => newSlice ++ s) []

theorem concat_foldl_eq {T : Type} (acc : List T) (ls : List (List T)) :
    ls.foldl (fun newSlice s => newSlice ++ s) acc = acc ++ ls.flatten := by
  induction ls generalizing acc with
  | nil => simp
  | cons x xs ih => simp [List.foldl_cons, ih, List.append_assoc]

theorem chunkLoop_flatten {T : Type} (size : Nat) (hs : 0 < size) (l : List T) :
    (chunkLoop size hs l).flatten = l := by
  induction l using chunkLoop.induct size hs with
  | case1 l hl =>
    rw [chunkLoop, if_pos hl]
    simp [List.isEmpty_iff] at hl
    simp [hl]
  | case2 l hl ih =>
    rw [chunkLoop, if_neg hl]
    simp [ih, List.take_append_drop]

/-- C4: for every slice and every chunk size `k >= 1`, concatenating in order
all chunks produced by `Chunk slice k` with `Concat` reproduces `slice`
exactly, so chunking never drops or duplicates elements. -/
theorem C4_chunk_concat_roundtrip {T : Type} (slice : List T) (k : Int)
    (hk : 1 ≤ k) :
    Option.map Concat (Chunk slice k) = some slice := by
  rw [Chunk, dif_neg (by omega)]
  simp [Concat, concat_foldl_eq, chunkLoop_flatten]

/-- C4 witness: chunking `[1, 2, 3, 4, 5]` with size `2` and concatenating. -/
theorem C4_chunk_concat_roundtrip_witness :
    Option.map Concat (Chunk ([1, 2, 3, 4, 5] : List Int) 2) =
      some [1, 2, 3, 4, 5] :=
  C4_chunk_concat_roundtrip ([1, 2, 3, 4, 5] : List Int) 2 (by decide)

/-! ### Zip

Go source:
```
func Zip[T, U any](left []T, right []U) []Pair[T, U] {
    if len(left) != len(right) {
        panic("cannot zip slices of different lengths")
    }
    pairs := make([]Pair[T, U], 0, len(left))
    for idx, item := range left {
        pairs = append(pairs, Pair[T, U]{First: item, Second: right[idx]})
    }
    return pairs
}
```
The loop appends `(left[idx], right[idx])` for each index of `left` in order;
under the length guard this is positional pairing, `zipLoop`.  `Pair` is
modelled by the product type.  The panic on a length mismatch is `none`. -/

def zipLoop {T U : Type} : List T → List U → List (T × U)
  | x :: xs, y :: ys => (x, y) :: zipLoop xs ys
  | _, _ => []

def Zip {T U : Type} (left : List T) (right : List U) : Option (List (T × U)) :=
  if left.length ≠ right.length then none
  else some (zipLoop left right)

theorem zipLoop_length {T U : Type} :
    ∀ (ls : List T) (rs : List U), (zipLoop ls rs).length = min ls.length rs.length
  | [], [] => by simp [zipLoop]
  | [], _ :: _ => by simp [zipLoop]
  | _ :: _, [] => by simp [zipLoop]
  | x :: xs, y :: ys => by
    simp [zipLoop, zipLoop_length xs ys]
    omega

theorem zipLoop_getElem? {T U : Type} :
    ∀ (ls : List T) (rs : List U) (i : Nat) (t : T) (u : U),
      ls[i]? = some t → rs[i]? = some u → (zipLoop ls rs)[i]? = some (t, u)
  | [], _, i, t, u => by simp
  | _ :: _, [], i, t, u => by simp
  | x :: xs, y :: ys, 0, t, u => by
    simp [zipLoop]
    rintro rfl rfl
    constructor <;> rfl
  | x :: xs, y :: ys, i + 1, t, u => by
    simp only [zipLoop, List.getElem?_cons_succ]
    exact zipLoop_getElem? xs ys i t u

/-- C5: `Zip left right` fails with a panic (modelled as `none`) if and only
if the lengths differ; when the lengths are equal it returns a sequence of the
same length whose element at each index `i` is the pair
`(left[i], right[i])`, with no truncation. -/
theorem C5_zip_spec {T U : Type} (left : List T) (right : List U) :
    (Zip left right = none ↔ left.length ≠ right.length)
    ∧ (left.length = right.length →
        Zip left right = some (zipLoop left right)
        ∧ (zipLoop left right).length = left.length
        ∧ ∀ (i : Nat) (t : T) (u : U), left[i]? = some t → right[i]? = some u →
            (zipLoop left right)[i]? = some (t, u)) := by
  constructor
  · rw [Zip]
    split
    · simp
      assumption
    · simp
      omega
  · intro h
    refine ⟨by rw [Zip, if_neg (by omega)], by rw [zipLoop_length, h]; omega, ?_⟩
    exact fun i t u ht hu => zipLoop_getElem? left right i t u ht hu

/-- C5 witness: zipping two equal-length slices. -/
theorem C5_zip_spec_witness :
    Zip ([5, 6] : List Int) ([7, 8] : List Int) = some (zipLoop [5, 6] [7, 8]) :=
  ((C5_zip_spec ([5, 6] : List Int) ([7, 8] : List Int)).2 (by decide)).1

/-! ### Replace and ReplaceAll

Go source:
```
func Replace[T comparable](in []T, old T, new T, n int) {
    for i := range in {
        if in[i] == old && n != 0 {
            in[i] = new
            n--
        }
    }
}

func ReplaceAll[T comparable](in []T, old T, new T) {
    Replace(in, old, new, -1)
}
```
The in-place update is modelled by returning the final contents of `in`
(called `l` here, as `in` is reserved in Lean; `new` is called `nw`).  The
loop visits indices left to right, rewriting a matching element and
decrementing `n` whenever `n ≠ 0`. -/

def Replace {T : Type} [DecidableEq T] (l : List T) (old nw : T) (n : Int) : List T :=
  match l with
  | [] => []
  | x :: xs =>
    if x = old ∧ n ≠ 0 then nw :: Replace xs old nw (n - 1)
    else x :: Replace xs old nw n

def ReplaceAll {T : Type} [DecidableEq T] (l : List T) (old nw : T) : List T :=
  Replace l old nw (-1)

theorem Replace_getElem? {T : Type} [DecidableEq T] (old nw : T) :
    ∀ (l : List T) (n : Int) (i : Nat),
    (Replace l old nw n)[i]? =
      if l[i]? = some old ∧ (n < 0 ∨ ((l.take (i + 1)).count old : Int) ≤ n)
      then some nw else l[i]? := by
  intro l
  induction l with
  | nil => intro n i; simp [Replace]
  | cons x xs ih =>
    intro n i
    by_cases hx : x = old ∧ n ≠ 0
    · obtain ⟨rfl, hn⟩ := hx
      rw [Replace, if_pos ⟨rfl, hn⟩]
      cases i with
      | zero =>
        rw [List.getElem?_cons_zero, List.getElem?_cons_zero, if_pos]
        refine ⟨rfl, ?_⟩
        simp [List.take_succ_cons, List.count_cons]
        omega
      | succ j =>
        rw [List.getElem?_cons_succ, ih (n - 1) j, List.getElem?_cons_succ]
        apply if_congr _ rfl rfl
        apply and_congr_right
        intro hj
        rw [List.take_succ_cons, List.count_cons_self]
        push_cast
        omega
    · rw [Replace, if_neg hx]
      cases i with
      | zero =>
        by_cases hxo : x = old
        · subst hxo
          have hn : n = 0 := by
            by_contra hc
            exact hx ⟨rfl, hc⟩
          subst hn
          rw [List.getElem?_cons_zero, List.getElem?_cons_zero, if_neg]
          rintro ⟨-, h | h⟩
          · omega
          · simp [List.take_succ_cons, List.count_cons] at h
        · rw [List.getElem?_cons_zero, List.getElem?_cons_zero,
            if_neg (by rintro ⟨hc, -⟩; exact hxo (Option.some.inj hc))]
      | succ j =>
        rw [List.getElem?_cons_succ, ih n j, List.getElem?_cons_succ]
        apply if_congr _ rfl rfl
        apply and_congr_right
        intro hj
        by_cases hxo : x = old
        · have hn : n = 0 := by
            by_contra hc
            exact hx ⟨hxo, hc⟩
          subst hn
          rw [List.take_succ_cons, hxo, List.count_cons_self]
          have hg : (xs.take (j + 1))[j]? = some old := by
            rw [List.getElem?_take, if_pos (by omega)]
            exact hj
          have hmem := List.getElem?_mem hg
          have h1 := List.count_pos_iff.mpr hmem
          apply iff_of_false
          · rintro (h | h)
            · omega
            · omega
          · rintro (h | h)
            · omega
            · omega
        · rw [List.take_succ_cons, List.count_cons_of_ne (Ne.symm hxo)]


theorem count_take_pos {T : Type} [DecidableEq T] (s : List T) (old : T) (i : Nat)
    (h : s[i]? = some old) : 0 < (s.take (i + 1)).count old := by
  have hg : (s.take (i + 1))[i]? = some old := by
    rw [List.getElem?_take, if_pos (by omega)]
    exact h
  exact List.count_pos_iff.mpr (List.getElem?_mem hg)

/-- C6: `Replace s old nw maxCount` scans left to right: with `maxCount = 0`
nothing is replaced (`s` is unchanged); with `maxCount = k + 1 > 0` exactly
the occurrences of `old` among the first `min (k + 1) (s.count old)` are
replaced by `nw` and every other position is unmodified; and with
`maxCount = -1` (`ReplaceAll`) every occurrence of `old` is replaced and
elements not equal to `old` are never modified. -/
theorem C6_replace_spec {T : Type} [DecidableEq T] (s : List T) (old nw : T) (k : Nat) :
    Replace s old nw 0 = s
    ∧ (∀ i : Nat, (Replace s old nw ((k : Int) + 1))[i]? =
        if s[i]? = some old ∧ (s.take (i + 1)).count old ≤ min (k + 1) (s.count old)
        then some nw else s[i]?)
    ∧ ReplaceAll s old nw = Replace s old nw (-1)
    ∧ (∀ i : Nat, (ReplaceAll s old nw)[i]? =
        if s[i]? = some old then some nw else s[i]?) := by
  refine ⟨?_, ?_, rfl, ?_⟩
  · apply List.ext_getElem?
    intro i
    rw [Replace_getElem?]
    rw [if_neg]
    rintro ⟨hio, h | h⟩
    · omega
    · have := count_take_pos s old i hio
      omega
  · intro i
    rw [Replace_getElem?]
    apply if_congr _ rfl rfl
    apply and_congr_right
    intro hio
    have hcc : (s.take (i + 1)).count old ≤ s.count old :=
      (List.take_sublist (i + 1) s).count_le old
    omega
  · intro i
    rw [ReplaceAll, Replace_getElem?]
    exact if_congr (and_iff_left (Or.inl (by omega))) rfl rfl

/-! ### Unique

Go source:
```
func Unique[T comparable](in []T) []T {
    result := make([]T, 0, len(in))
    seen := make(map[T]struct{}, len(in))
    for i := 0; i < len(in); i++ {
        item := in[i]
        if _, ok := seen[item]; ok {
            continue
        }
        seen[item] = struct{}{}
        result = append(result, item)
    }
    return result
}
```
The hash-map `seen` is modelled by the list of its keys (only membership is
used); inserting a key is consing it onto the list. -/

def uniqueLoop {T : Type} [DecidableEq T] : List T → List T → List T
  | [], _ => []
  | x :: xs, seen => if x ∈ seen then uniqueLoop xs seen else x :: uniqueLoop xs (x :: seen)

def Unique {T : Type} [DecidableEq T] (l : List T) : List T :=
  uniqueLoop l []

theorem uniqueLoop_congr {T : Type} [DecidableEq T] :
    ∀ (l s₁ s₂ : List T), (∀ y ∈ l, (y ∈ s₁ ↔ y ∈ s₂)) →
      uniqueLoop l s₁ = uniqueLoop l s₂
  | [], _, _, _ => rfl
  | x :: xs, s₁, s₂, h => by
    have hx12 := h x (List.mem_cons_self x xs)
    rw [uniqueLoop, uniqueLoop]
    by_cases hx : x ∈ s₁
    · rw [if_pos hx, if_pos (hx12.mp hx)]
      exact uniqueLoop_congr xs s₁ s₂ fun y hy => h y (List.mem_cons_of_mem x hy)
    · rw [if_neg hx, if_neg (fun hc => hx (hx12.mpr hc))]
      congr 1
      apply uniqueLoop_congr
      intro y hy
      simp [List.mem_cons, h y (List.mem_cons_of_mem x hy)]

theorem uniqueLoop_filter {T : Type} [DecidableEq T] (x : T) :
    ∀ (l seen : List T), x ∈ seen →
      uniqueLoop l seen = uniqueLoop (l.filter (fun y => y ≠ x)) seen
  | [], _, _ => rfl
  | y :: ys, seen, hx => by
    rw [uniqueLoop, List.filter_cons]
    by_cases hyx : y = x
    · subst hyx
      rw [if_pos hx, if_neg (by simp)]
      exact uniqueLoop_filter y ys seen hx
    · conv_rhs => rw [if_pos (show decide (y ≠ x) = true by simpa using hyx)]
      conv_rhs => rw [uniqueLoop]
      by_cases hy : y ∈ seen
      · rw [if_pos hy, if_pos hy]
        exact uniqueLoop_filter x ys seen hx
      · rw [if_neg hy, if_neg hy]
        congr 1
        exact uniqueLoop_filter x ys (y :: seen) (List.mem_cons_of_mem y hx)

theorem uniqueLoop_nodup_and_fresh {T : Type} [DecidableEq T] :
    ∀ (l seen : List T),
      (uniqueLoop l seen).Nodup ∧ ∀ y ∈ uniqueLoop l seen, y ∉ seen
  | [], seen => by simp [uniqueLoop]
  | x :: xs, seen => by
    rw [uniqueLoop]
    by_cases hx : x ∈ seen
    · rw [if_pos hx]
      exact uniqueLoop_nodup_and_fresh xs seen
    · rw [if_neg hx]
      obtain ⟨hnd, hfresh⟩ := uniqueLoop_nodup_and_fresh xs (x :: seen)
      refine ⟨List.nodup_cons.mpr ⟨?_, hnd⟩, ?_⟩
      · intro hc
        exact hfresh x hc (List.mem_cons_self x seen)
      · intro y hy
        rcases List.mem_cons.mp hy with rfl | hy'
        · exact hx
        · exact fun hc => hfresh y hy' (List.mem_cons_of_mem x hc)

theorem uniqueLoop_of_nodup {T : Type} [DecidableEq T] :
    ∀ (l seen : List T), l.Nodup → (∀ y ∈ l, y ∉ seen) →
      uniqueLoop l seen = l
  | [], _, _, _ => rfl
  | x :: xs, seen, hnd, hdisj => by
    rw [uniqueLoop, if_neg (hdisj x (List.mem_cons_self x xs))]
    congr 1
    apply uniqueLoop_of_nodup xs (x :: seen) (List.nodup_cons.mp hnd).2
    intro y hy
    intro hc
    rcases List.mem_cons.mp hc with rfl | hc'
    · exact (List.nodup_cons.mp hnd).1 hy
    · exact hdisj y (List.mem_cons_of_mem x hy) hc'

/-- C8: `Unique` is idempotent (`Unique (Unique s) = Unique s`); it performs a
stable dedup: the output has no duplicates and, recursively, the head of the
input is kept in place while its later duplicates are dropped, which pins the
first-occurrence, first-seen-order behavior. -/
theorem C8_unique_idempotent {T : Type} [DecidableEq T] (s t : List T) (x : T) :
    Unique (Unique s) = Unique s
    ∧ (Unique s).Nodup
    ∧ Unique ([] : List T) = []
    ∧ Unique (x :: t) = x :: Unique (t.filter (fun y => y ≠ x)) := by
  obtain ⟨hnd, -⟩ := uniqueLoop_nodup_and_fresh s ([] : List T)
  refine ⟨?_, hnd, rfl, ?_⟩
  · exact uniqueLoop_of_nodup (Unique s) [] hnd (by simp)
  · rw [Unique, uniqueLoop, if_neg (List.not_mem_nil x)]
    rw [uniqueLoop_filter x t [x] (List.mem_cons_self x [])]
    rw [Unique]
    congr 1
    apply uniqueLoop_congr
    intro y hy
    have hyx : y ≠ x := by
      have := List.of_mem_filter hy
      simpa using this
    simp [hyx]

/-! ### Filter, FindAll, Clone and the nil/empty distinction

Go source:
```
func Filter[T any](s []T, fn Predicate[T]) []T {
    res := make([]T, 0)
    for i := 0; i < len(s); i++ {
        if fn(s[i]) { res = append(res, s[i]) }
    }
    return res
}

func FindAll[T any](slice []T, fn Predicate[T]) []T {
    results := make([]T, 0)
    for i := 0; i < len(slice); i++ {
        if fn(slice[i]) { results = append(results, slice[i]) }
    }
    return results
}

func Clone[T any](slice []T) []T {
    if slice == nil { return nil }
    cloned := make([]T, len(slice))
    copy(cloned, slice)
    return cloned
}

func TakeIf[T any](slice []T, pred Predicate[T], fn func(T)) {
    for i := 0; i < len(slice); i++ {
        if pred(slice[i]) { fn(slice[i]) }
    }
}
```
Here the nil/non-nil distinction of a Go slice is observable, so a slice is a
`GoSlice T = Option (List T)`: `none` is the nil slice, `some l` a non-nil
slice with elements `l`.  Iterating a nil slice sees no elements (`elems`).
`Filter` and `FindAll` start from `make([]T, 0)` — a non-nil empty slice —
and append the matching elements in order (`filterLoop`, the shared loop
body of both functions).  `Clone` returns nil for nil, otherwise a fresh
zero-filled array (`z` is the Go zero value) fully overwritten by `copy`.
`TakeIf` calls the side-effecting `fn` on each matching element; `fn` is
modelled as a state transformer `S -> T -> S` threaded through the loop. -/

abbrev GoSlice (T : Type) : Type := Option (List T)

def elems {T : Type} (s : GoSlice T) : List T := s.getD []

def filterLoop {T : Type} (s : List T) (fn : T → Bool) : List T :=
  match s with
  | [] => []
  | x :: xs => if fn x then x :: filterLoop xs fn else filterLoop xs fn

def Filter {T : Type} (s : GoSlice T) (fn : T → Bool) : GoSlice T :=
  some (filterLoop (elems s) fn)

def FindAll {T : Type} (s : GoSlice T) (fn : T → Bool) : GoSlice T :=
  some (filterLoop (elems s) fn)

def Clone {T : Type} (z : T) (s : GoSlice T) : GoSlice T :=
  match s with
  | none => none
  | some l => some (listCopy (List.replicate l.length z) l)

theorem filterLoop_eq_filter {T : Type} (fn : T → Bool) :
    ∀ s : List T, filterLoop s fn = s.filter fn
  | [] => rfl
  | x :: xs => by
    rw [filterLoop, List.filter_cons, filterLoop_eq_filter fn xs]

theorem clone_some {T : Type} (z : T) (l : List T) :
    Clone z (some l) = some l := by
  rw [Clone, listCopy]
  congr 1
  simp

/-- C9: a nil slice is normalized away by the constructive operations but
preserved by `Clone`: `Filter` and `FindAll` on a nil input — or on any input
with no matches — return an empty, non-nil slice (`some []`), and never
return `none`, while `Clone` maps nil to nil (and copies a non-nil slice
unchanged). -/
theorem C9_nil_normalization {T : Type} (fn : T → Bool) (s : GoSlice T) (z : T) :
    Filter (none : GoSlice T) fn = some []
    ∧ FindAll (none : GoSlice T) fn = some []
    ∧ Filter s fn ≠ none
    ∧ FindAll s fn ≠ none
    ∧ ((∀ x ∈ elems s, fn x = false) → Filter s fn = some [])
    ∧ Clone z (none : GoSlice T) = none
    ∧ (∀ l : List T, Clone z (some l) = some l) := by
  refine ⟨rfl, rfl, by simp [Filter], by simp [FindAll], ?_, rfl, clone_some z⟩
  intro h
  rw [Filter, filterLoop_eq_filter]
  congr 1
  rw [List.filter_eq_nil_iff]
  intro a ha
  simp [h a ha]

/-- C9 witness: a non-nil input with no matching elements. -/
theorem C9_nil_normalization_witness :
    Filter (some [1, 2, 3] : GoSlice Int) (fun x => decide (x > 5)) = some [] :=
  (C9_nil_normalization (fun x : Int => decide (x > 5)) (some [1, 2, 3]) 0).2.2.2.2.1
    (by decide)

def TakeIf {T S : Type} (slice : List T) (pred : T → Bool) (fn : S → T → S)
    (s0 : S) : S :=
  match slice with
  | [] => s0
  | x :: xs => if pred x then TakeIf xs pred fn (fn s0 x) else TakeIf xs pred fn s0

theorem foldl_trace {T : Type} :
    ∀ (l acc : List T), l.foldl (fun tr x => tr ++ [x]) acc = acc ++ l
  | [], acc => by simp
  | x :: xs, acc => by
    rw [List.foldl_cons, foldl_trace xs (acc ++ [x])]
    simp

/-- C10: `TakeIf slice pred fn` invokes `fn` exactly once on each element of
`slice` satisfying `pred`, in source order and on no other element: for every
state type and transformer it computes the left fold of `fn` over
`Filter slice pred`, and instantiating `fn` with a trace recorder shows the
sequence of `fn` invocations is exactly `Filter slice pred`. -/
theorem C10_takeif_filter_equiv {T S : Type} (slice : List T) (pred : T → Bool)
    (fn : S → T → S) (s0 : S) :
    TakeIf slice pred fn s0 = (elems (Filter (some slice) pred)).foldl fn s0
    ∧ TakeIf slice pred (fun tr x => tr ++ [x]) ([] : List T) =
        elems (Filter (some slice) pred) := by
  have key : ∀ (S' : Type) (fn' : S' → T → S') (sl : List T) (a : S'),
      TakeIf sl pred fn' a = (filterLoop sl pred).foldl fn' a := by
    intro S' fn' sl
    induction sl with
    | nil => intro a; rfl
    | cons x xs ih =>
      intro a
      rw [TakeIf, filterLoop]
      by_cases h : pred x
      · rw [if_pos h, if_pos h, List.foldl_cons, ih]
      · rw [if_neg h, if_neg h, ih]
  refine ⟨key S fn slice s0, ?_⟩
  rw [key (List T) (fun tr x => tr ++ [x]) slice []]
  rw [foldl_trace]
  simp [Filter, elems]

end slices
